import Mathlib

/-!
A shallow embedding of the continuous persistence sink implemented in
src/compute/src/sink/persist_sink.rs of the materialize repository, together
with theorems about the three operators (mint_batch_descriptions,
write_batches, append_batches).

Timestamps (mz_repr::Timestamp, a u64 wrapper with step_forward adding one)
are modeled as Nat. The timestamp domain is totally ordered, so a timely
Antichain over it is either empty or a singleton; we model a frontier as
Option Nat with none standing for the empty antichain and some t for the
singleton antichain containing t. Rows and dataflow errors are opaque to the
sink and are modeled as opaque Nat payloads. Diffs are signed integer
multiplicities, modeled as Int.
-/

namespace PersistSink

/-- A frontier, that is an antichain over the totally ordered timestamp
domain: none is the empty antichain (no more progress possible), some t the
singleton antichain containing t. -/
abbrev Frontier := Option Nat

/-- Opaque payload of an update: Ok(row) or Err(dataflow_error) in the
source, modeled as an opaque identifier. -/
abbrev Payload := Nat

/-- An update (payload, time, diff) as carried on the desired and persist
streams of the sink. -/
abbrev Update := Payload × Nat × Int

/-- A batch description (lower, upper) as minted by mint_batch_descriptions. -/
abbrev BatchDesc := Frontier × Frontier

/-- The timely PartialOrder less_equal on antichains: every element of the
second antichain is greater than or equal to some element of the first. On
empty-or-singleton antichains this reduces to the cases below; the empty
antichain is the top element. -/
def frontierLe : Frontier → Frontier → Bool
  | _, none => true
  | none, some _ => false
  | some a, some b => decide (a ≤ b)

/-- The timely PartialOrder less_than on antichains: less_equal but not
greater_equal (equivalently, less_equal and distinct, by antisymmetry). -/
def frontierLt (f g : Frontier) : Bool :=
  frontierLe f g && !(frontierLe g f)

/-- Antichain::less_equal(t) of the source: some element of the antichain is
less than or equal to the time t. -/
def frontierLeT : Frontier → Nat → Bool
  | none, _ => false
  | some a, t => decide (a ≤ t)

/-- Lattice::advance_by of differential dataflow on a totally ordered time:
round the time up to the join with the frontier; the empty frontier leaves
the time unchanged. -/
def advanceBy (t : Nat) (f : Frontier) : Nat :=
  match f with
  | none => t
  | some p => max t p

lemma frontierLe_refl (f : Frontier) : frontierLe f f = true := by
  cases f <;> simp [frontierLe]

lemma frontierLe_trans {a b c : Frontier} (h1 : frontierLe a b = true)
    (h2 : frontierLe b c = true) : frontierLe a c = true := by
  cases a <;> cases b <;> cases c <;> simp [frontierLe] at * <;> omega

lemma frontierLt_le {a b : Frontier} (h : frontierLt a b = true) :
    frontierLe a b = true := by
  unfold frontierLt at h
  exact ((Bool.and_eq_true _ _).mp h).1

lemma frontierLt_trans {a b c : Frontier} (h1 : frontierLt a b = true)
    (h2 : frontierLt b c = true) : frontierLt a c = true := by
  cases a <;> cases b <;> cases c <;>
    simp [frontierLt, frontierLe] at * <;> omega

lemma frontierLt_some {f g : Frontier} (h : frontierLt f g = true) :
    ∃ a, f = some a := by
  cases f with
  | none => cases g <;> simp [frontierLt, frontierLe] at h
  | some a => exact ⟨a, rfl⟩

/-! ### The mint_batch_descriptions operator (source lines 228 to 496)

State of the single active (leader) minter instance between scheduler
wakeups. The two input frontiers start at the minimum antichain (source
lines 346 and 347), the marker of the persist frontier at the last emission
starts at none (line 355), the shared write frontier cell of the leader
starts at the minimum antichain (lines 263 and 264), and the capability set
holds the initial capability at the minimum time.
-/

structure MinterState where
  desiredFrontier : Frontier
  persistFrontier : Frontier
  emittedPersistFrontier : Option Frontier
  sharedFrontier : Frontier
  capSet : Frontier
deriving DecidableEq

/-- One input event consumed by the mint loop (source lines 357 to 385):
data or a progress update on the desired input, or data or a progress
update on the persist feedback input. -/
inductive MinterEvent where
  | desiredData
  | desiredProgress (f : Frontier)
  | persistData
  | persistProgress (f : Frontier)
deriving DecidableEq

/-- Result of one pass through the mint loop: the next state, the batch
description given to the output session (if any), and whether the pass hit
one of the panics in the source (the unwrap at line 456 or the panic at
line 482). -/
structure MinterStepResult where
  state : MinterState
  emitted : Option BatchDesc
  panicked : Bool
deriving DecidableEq

/-- Frontier bookkeeping for one event (source lines 365 to 367 and 376 to
378): a progress event overwrites the corresponding frontier variable, data
events change nothing. -/
def minterApplyEvent (s : MinterState) : MinterEvent → MinterState
  | MinterEvent.desiredProgress f => { s with desiredFrontier := f }
  | MinterEvent.persistProgress f => { s with persistFrontier := f }
  | _ => s

def minterIsProgress : MinterEvent → Bool
  | MinterEvent.desiredProgress _ => true
  | MinterEvent.persistProgress _ => true
  | _ => false

/-- Shared write frontier maintenance (source lines 396 to 413): when the
observed persist frontier is strictly beyond the shared cell, the cell is
cleared and replaced by the persist frontier. -/
def minterUpdateShared (s : MinterState) : MinterState :=
  if frontierLt s.sharedFrontier s.persistFrontier then
    { s with sharedFrontier := s.persistFrontier }
  else s

/-- Second conjunct of the minting guard (source lines 435 to 439): the
persist frontier has moved since the last emitted batch description, or no
description was emitted yet. -/
def mintAdvanced (s : MinterState) : Bool :=
  match s.emittedPersistFrontier with
  | none => true
  | some f => frontierLt f s.persistFrontier

/-- The minting guard (source lines 434 to 440): the persist frontier is
strictly less than the desired frontier, and the persist frontier has moved
since the last emission. -/
def mintGuard (s : MinterState) : Bool :=
  frontierLt s.persistFrontier s.desiredFrontier && mintAdvanced s

/-- The emission part of the mint loop (source lines 434 to 486). Under the
guard, the description (persist_frontier, desired_frontier) is built, the
capability set is delayed to the first element of the lower frontier (the
unwrap at line 456 panics when that is impossible), the description is given
to the output session, the capability set is downgraded to the successor of
the batch time, and the emitted persist frontier marker is replaced. -/
def minterTryEmit (s : MinterState) : MinterStepResult :=
  if mintGuard s then
    match s.persistFrontier with
    | some batchTs =>
      if frontierLeT s.capSet batchTs then
        { state := { s with
            emittedPersistFrontier := some s.persistFrontier,
            capSet := some (batchTs + 1) },
          emitted := some (s.persistFrontier, s.desiredFrontier),
          panicked := false }
      else
        { state := s, emitted := none, panicked := true }
    | none =>
      { state := s, emitted := none, panicked := true }
  else
    { state := s, emitted := none, panicked := false }

/-- One pass through the mint loop of the active worker, processing a single
input event. Data events are read away (lines 361 to 364 and 371 to 375,
both continue); progress events update the stored frontier, then run the
shared frontier update and the minting logic. -/
def minterStep (s : MinterState) (e : MinterEvent) : MinterStepResult :=
  match e with
  | MinterEvent.desiredData => ⟨s, none, false⟩
  | MinterEvent.persistData => ⟨s, none, false⟩
  | e => minterTryEmit (minterUpdateShared (minterApplyEvent s e))

/-- Start state of the active minter (source lines 263 to 264, 283 to 284,
346, 347 and 355). -/
def minterInit : MinterState :=
  { desiredFrontier := some 0
    persistFrontier := some 0
    emittedPersistFrontier := none
    sharedFrontier := some 0
    capSet := some 0 }

/-- Run the mint loop over a list of input events, collecting the emitted
batch descriptions in order. -/
def minterRun (s : MinterState) : List MinterEvent → MinterState × List BatchDesc
  | [] => (s, [])
  | e :: es =>
    let r := minterStep s e
    let rest := minterRun r.state es
    (rest.1, r.emitted.toList ++ rest.2)

def minterRunEmits (s : MinterState) (es : List MinterEvent) : List BatchDesc :=
  (minterRun s es).2

/-- Bootstrap of the minter (source lines 308 to 343): when the persist
shard upper is strictly below the write lower bound (the as_of, bound at
lines 246 to 248), an empty append advances the shard upper to the bound.
This only affects the shard; the local variable holding it is not read
afterwards, and the loop frontiers start at the minimum regardless (lines
346 and 347). -/
def minterBootstrapShardUpper (shardUpper writeLowerBound : Frontier) : Frontier :=
  if frontierLt shardUpper writeLowerBound then writeLowerBound else shardUpper

/-- The whole minter body for a given as_of: the bootstrap advances the
shard upper, then the loop runs from minterInit. The emitted descriptions do
not depend on the as_of because the write lower bound is used only by the
bootstrap append in the source. -/
def minterRunWithAsOf (shardUpper asOf : Frontier) (es : List MinterEvent) :
    Frontier × List BatchDesc :=
  (minterBootstrapShardUpper shardUpper asOf, minterRunEmits minterInit es)

/-- Reachability invariant of the mint loop: before the first emission the
capability set still holds the minimum time, and after emitting a
description with lower equal to some l the capability set was downgraded to
the successor of l. -/
def MinterInv (s : MinterState) : Prop :=
  (s.emittedPersistFrontier = none ∧ s.capSet = some 0) ∨
  (∃ l, s.emittedPersistFrontier = some (some l) ∧ s.capSet = some (l + 1))

/-! ### The write_batches operator (source lines 501 to 811)

A hollow batch artifact produced by the writer: the uploaded updates
together with the lower and upper of the description it was written for
(source lines 769 to 785). -/

structure Artifact where
  updates : List Update
  lower : Frontier
  upper : Frontier
deriving DecidableEq

/-- State of one write_batches instance between scheduler wakeups: the
correction buffer (desired minus persist, line 558), the set of in-flight
batch descriptions received from the minter (line 563; we keep only the
keys, the stored capability is pinned to the lower of its description), and
the three input frontiers (lines 585 to 587, all starting at the minimum). -/
structure WriterState where
  correction : List Update
  inFlight : List BatchDesc
  descsFrontier : Frontier
  desiredFrontier : Frontier
  persistFrontier : Frontier
deriving DecidableEq

/-- One input event consumed by the write loop (source lines 589 to 679). -/
inductive WriterEvent where
  | descsData (ds : List BatchDesc)
  | descsProgress (f : Frontier)
  | desiredData (us : List Update)
  | desiredProgress (f : Frontier)
  | persistData (us : List Update)
  | persistProgress (f : Frontier)
deriving DecidableEq

/-- Result of one pass through the write loop: the next state, the
artifacts given to the output session per ready description (zero or one
each, lines 769 to 792), and whether the pass hit a panic in the source
(the duplicate-description assert at line 615 or the unwrap of the first
element of an empty lower at line 613). -/
structure WriterStepResult where
  state : WriterState
  emitted : List (BatchDesc × List Artifact)
  panicked : Bool
deriving DecidableEq

/-- Frontier bookkeeping for one event (source lines 627 to 629, 656 to
658 and 670 to 672). -/
def writerApplyEvent (s : WriterState) : WriterEvent → WriterState
  | WriterEvent.descsProgress f => { s with descsFrontier := f }
  | WriterEvent.desiredProgress f => { s with desiredFrontier := f }
  | WriterEvent.persistProgress f => { s with persistFrontier := f }
  | _ => s

def writerIsProgress : WriterEvent → Bool
  | WriterEvent.descsProgress _ => true
  | WriterEvent.desiredProgress _ => true
  | WriterEvent.persistProgress _ => true
  | _ => false

/-- Ingestion of new batch descriptions (source lines 593 to 625): each
description is inserted into the in-flight map under a capability delayed
to the first element of its lower; inserting a duplicate trips the assert
at line 615, and an empty lower makes the unwrap at line 613 panic. -/
def writerInsertDescs (s : WriterState) : List BatchDesc → WriterState × Bool
  | [] => (s, false)
  | d :: ds =>
    if d.1 = none ∨ d ∈ s.inFlight then (s, true)
    else writerInsertDescs { s with inFlight := s.inFlight ++ [d] } ds

/-- Advance every time of the correction buffer by the persist frontier
(source lines 691 to 705): only the time component changes. -/
def advanceCorrection (pf : Frontier) (l : List Update) : List Update :=
  l.map (fun u => (u.1, advanceBy u.2.1 pf, u.2.2))

/-- Key of an update for consolidation: the (payload, time) pair. -/
def updKey (u : Update) : Payload × Nat := (u.1, u.2.1)

def keyLe (a b : Payload × Nat) : Bool :=
  decide (a.1 < b.1) || (decide (a.1 = b.1) && decide (a.2 ≤ b.2))

def insertUpd (u : Update) : List Update → List Update
  | [] => [u]
  | v :: vs =>
    if keyLe (updKey u) (updKey v) then u :: v :: vs else v :: insertUpd u vs

def sortUpds (l : List Update) : List Update := l.foldr insertUpd []

/-- Merge the rest of a key-sorted update list into the current
accumulated update: sum the diffs of equal (payload, time) keys and drop
updates whose accumulated diff is zero. -/
def mergeInto (u : Update) : List Update → List Update
  | [] => if u.2.2 = 0 then [] else [u]
  | v :: vs =>
    if updKey u = updKey v then mergeInto (u.1, u.2.1, u.2.2 + v.2.2) vs
    else (if u.2.2 = 0 then [] else [u]) ++ mergeInto v vs

/-- Merge a key-sorted list of updates: sum the diffs of equal (payload,
time) keys and drop updates whose accumulated diff is zero. -/
def mergeUpds : List Update → List Update
  | [] => []
  | u :: rest => mergeInto u rest

/-- The consolidate_updates function of differential dataflow (called at
source line 744): sort by (payload, time) and accumulate diffs, dropping
zero diffs. -/
def consolidate (l : List Update) : List Update := mergeUpds (sortUpds l)

/-- Readiness of an in-flight description under the current input
frontiers (source lines 723 to 729): the description is not beyond the
batch descriptions frontier, the desired frontier is not strictly less than
its upper, and the persist frontier is not strictly less than its lower. -/
def writerReady (descsF desiredF persistF : Frontier) (d : BatchDesc) : Bool :=
  !(frontierLe descsF d.1) && !(frontierLt desiredF d.2)
    && !(frontierLt persistF d.1)

/-- Construction of the artifacts for one ready description (source lines
759 to 792): the subset of the correction buffer whose time t satisfies
lower less_equal t and not upper less_equal t is uploaded as one batch; an
empty subset yields no artifact at all. -/
def batchFor (corr : List Update) (lower upper : Frontier) : List Artifact :=
  let subset := corr.filter
    (fun u => frontierLeT lower u.2.1 && !(frontierLeT upper u.2.1))
  if subset = [] then [] else [{ updates := subset, lower := lower, upper := upper }]

/-- The emission part of the write loop (source lines 681 to 802), run
after a progress event updated a frontier. When the desired frontier is not
less_equal the persist frontier: all correction times are advanced by the
persist frontier, the ready descriptions are computed, the correction is
consolidated only when some description is ready, and each ready
description is removed from the in-flight map and written out. -/
def writerMaybeEmit (s : WriterState) : WriterStepResult :=
  if frontierLe s.desiredFrontier s.persistFrontier then
    { state := s, emitted := [], panicked := false }
  else
    let corr1 := advanceCorrection s.persistFrontier s.correction
    let ready := s.inFlight.filter
      (writerReady s.descsFrontier s.desiredFrontier s.persistFrontier)
    let corr2 := if ready.isEmpty then corr1 else consolidate corr1
    { state := { s with
        correction := corr2
        inFlight := s.inFlight.filter (fun d =>
          !(writerReady s.descsFrontier s.desiredFrontier s.persistFrontier d)) }
      emitted := ready.map (fun d => (d, batchFor corr2 d.1 d.2))
      panicked := false }

/-- Negate the diff of an update, as done for data of the persist input
(source line 666). -/
def negUpd (u : Update) : Update := (u.1, u.2.1, -u.2.2)

/-- One pass through the write loop, processing a single input event. Data
events append to the correction buffer or the in-flight map and continue
(lines 593 to 626, 634 to 655 and 663 to 669); progress events update the
stored frontier and then run the emission logic. -/
def writerStep (s : WriterState) : WriterEvent → WriterStepResult
  | WriterEvent.descsData ds =>
    let r := writerInsertDescs s ds
    { state := r.1, emitted := [], panicked := r.2 }
  | WriterEvent.desiredData us =>
    { state := { s with correction := s.correction ++ us }
      emitted := [], panicked := false }
  | WriterEvent.persistData us =>
    { state := { s with correction := s.correction ++ us.map negUpd }
      emitted := [], panicked := false }
  | e => writerMaybeEmit (writerApplyEvent s e)

/-! ### The append_batches operator (source lines 818 to 1089) -/

/-- Result of one compare_and_append_batch call: either success or a benign
conflict carrying the authoritative current upper of the shard (the
indeterminate case is a fatal expect at line 1045 and is outside the state
space). -/
inductive CaaResult where
  | ok
  | conflict (cu : Frontier)
deriving DecidableEq

/-- Record of one compare_and_append_batch call performed by the appender
while processing a done description, including how the operator reacted to
the result (source lines 1020 to 1083). -/
structure CaaCall where
  lower : Frontier
  upper : Frontier
  batches : List Artifact
  result : CaaResult
  capAfter : Frontier
  shardAfter : Frontier
  deleted : List Artifact
deriving DecidableEq

/-- State of the single active append_batches instance between scheduler
wakeups: the in-flight descriptions (line 887), the per-description
artifact lists (line 890), the two input frontiers (lines 912 and 913,
starting at the minimum), the output capability set (line 879), and the
persist shard upper (external consensus state that compare_and_append is
checked against). -/
structure AppenderState where
  inFlightDescs : List BatchDesc
  inFlightBatches : List (BatchDesc × List Artifact)
  descsFrontier : Frontier
  batchesFrontier : Frontier
  capSet : Frontier
  shardUpper : Frontier
deriving DecidableEq

/-- One input event consumed by the append loop (source lines 915 to 979). -/
inductive AppenderEvent where
  | descsData (ds : List BatchDesc)
  | descsProgress (f : Frontier)
  | batchesData (bs : List Artifact)
  | batchesProgress (f : Frontier)
deriving DecidableEq

structure AppenderStepResult where
  state : AppenderState
  calls : List CaaCall
  panicked : Bool
deriving DecidableEq

/-- Lookup of the artifact list collected for a description (HashMap
lookup; absent key yields the empty list, mirroring unwrap_or_else at
line 1025). -/
def lookupBatches : List (BatchDesc × List Artifact) → BatchDesc → List Artifact
  | [], _ => []
  | p :: m, d => if p.1 = d then p.2 else lookupBatches m d

/-- Removal of the map entry of a description (HashMap remove at line
1024). -/
def removeBatches : List (BatchDesc × List Artifact) → BatchDesc → List (BatchDesc × List Artifact)
  | [], _ => []
  | p :: m, d => if p.1 = d then removeBatches m d else p :: removeBatches m d

/-- Ingestion of one written batch (source lines 954 to 967): the batch is
rehydrated and pushed onto the artifact list of the description formed by
its own lower and upper. -/
def insertBatch (m : List (BatchDesc × List Artifact)) (d : BatchDesc) (a : Artifact) :
    List (BatchDesc × List Artifact) :=
  match m with
  | [] => [(d, [a])]
  | p :: rest =>
    if p.1 = d then (p.1, p.2 ++ [a]) :: rest else p :: insertBatch rest d a

/-- Modelled from the spec: the compare_and_append_batch operation of the
persist shard collaborator is not part of the repository sources; section 6
of the spec gives its contract as an atomic conditional commit that
succeeds, advancing the shard upper to the new upper, exactly when the
expected lower equals the current shard upper, and otherwise fails benignly
returning the actual upper. -/
def shardCompareAndAppend (shardUpper lower upper : Frontier) : CaaResult × Frontier :=
  if shardUpper = lower then (CaaResult.ok, upper)
  else (CaaResult.conflict shardUpper, shardUpper)

/-- The timely PartialOrder less_than on description pairs: less_equal in
both components and not greater_equal, used by the sort comparator at
source lines 1010 to 1018. -/
def descLt (a b : BatchDesc) : Bool :=
  (frontierLe a.1 b.1 && frontierLe a.2 b.2)
    && !(frontierLe b.1 a.1 && frontierLe b.2 a.2)

def insertDescSorted (x : BatchDesc) : List BatchDesc → List BatchDesc
  | [] => [x]
  | y :: ys => if descLt y x then y :: insertDescSorted x ys else x :: y :: ys

/-- Sort the done descriptions by the partial order of their frontiers
(source lines 1008 to 1018). -/
def sortDescs (l : List BatchDesc) : List BatchDesc := l.foldr insertDescSorted []

/-- Processing of one done description (source lines 1020 to 1083): the
description is removed from the in-flight sets, its collected artifacts are
taken, and one compare_and_append is performed. On success the output
capability set is downgraded to the upper; on conflict it is downgraded to
the authoritative current upper and every artifact that was about to be
committed is deleted. -/
def appenderProcessOne (st : AppenderState) (d : BatchDesc) : AppenderState × CaaCall :=
  let batches := lookupBatches st.inFlightBatches d
  let stBase := { st with
    inFlightDescs := st.inFlightDescs.erase d
    inFlightBatches := removeBatches st.inFlightBatches d }
  match shardCompareAndAppend st.shardUpper d.1 d.2 with
  | (CaaResult.ok, shardNew) =>
    ({ stBase with capSet := d.2, shardUpper := shardNew },
     { lower := d.1, upper := d.2, batches := batches, result := CaaResult.ok,
       capAfter := d.2, shardAfter := shardNew, deleted := [] })
  | (CaaResult.conflict cu, shardNew) =>
    ({ stBase with capSet := cu, shardUpper := shardNew },
     { lower := d.1, upper := d.2, batches := batches,
       result := CaaResult.conflict cu,
       capAfter := cu, shardAfter := shardNew, deleted := batches })

def appenderProcessDone (st : AppenderState) : List BatchDesc → AppenderState × List CaaCall
  | [] => (st, [])
  | d :: ds =>
    let r := appenderProcessOne st d
    let rest := appenderProcessDone r.1 ds
    (rest.1, r.2 :: rest.2)

/-- The done-processing part of the append loop (source lines 981 to 1083):
collect the in-flight descriptions whose lower is no longer beyond the
batches input frontier, sort them by the partial order, and process them in
order. -/
def appenderAfterProgress (st : AppenderState) : AppenderState × List CaaCall :=
  appenderProcessDone st
    (sortDescs (st.inFlightDescs.filter (fun d => !(frontierLe st.batchesFrontier d.1))))

/-- Ingestion of new batch descriptions (source lines 919 to 946): each is
inserted into the in-flight set; a duplicate trips the assert at line 937. -/
def appenderInsertDescs (st : AppenderState) : List BatchDesc → AppenderState × Bool
  | [] => (st, false)
  | d :: ds =>
    if d ∈ st.inFlightDescs then (st, true)
    else appenderInsertDescs { st with inFlightDescs := st.inFlightDescs ++ [d] } ds

def appenderInsertBatches (st : AppenderState) : List Artifact → AppenderState
  | [] => st
  | a :: rest =>
    appenderInsertBatches
      { st with inFlightBatches := insertBatch st.inFlightBatches (a.lower, a.upper) a } rest

/-- One pass through the append loop of the active worker, processing one
input event. Data events ingest and continue (lines 919 to 946 and 954 to
968); progress events update the stored frontier and run the
done-processing. -/
def appenderStep (st : AppenderState) : AppenderEvent → AppenderStepResult
  | AppenderEvent.descsData ds =>
    let r := appenderInsertDescs st ds
    { state := r.1, calls := [], panicked := r.2 }
  | AppenderEvent.batchesData bs =>
    { state := appenderInsertBatches st bs, calls := [], panicked := false }
  | AppenderEvent.descsProgress f =>
    let r := appenderAfterProgress { st with descsFrontier := f }
    { state := r.1, calls := r.2, panicked := false }
  | AppenderEvent.batchesProgress f =>
    let r := appenderAfterProgress { st with batchesFrontier := f }
    { state := r.1, calls := r.2, panicked := false }

/-! ### Supporting lemmas about the minter -/

lemma frontierLt_irrefl (f : Frontier) : frontierLt f f = false := by
  cases f <;> simp [frontierLt, frontierLe]

lemma minterApplyEvent_emitted (s : MinterState) (e : MinterEvent) :
    (minterApplyEvent s e).emittedPersistFrontier = s.emittedPersistFrontier := by
  cases e <;> rfl

lemma minterApplyEvent_cap (s : MinterState) (e : MinterEvent) :
    (minterApplyEvent s e).capSet = s.capSet := by
  cases e <;> rfl

lemma minterUpdateShared_persist (s : MinterState) :
    (minterUpdateShared s).persistFrontier = s.persistFrontier := by
  unfold minterUpdateShared; split <;> rfl

lemma minterUpdateShared_desired (s : MinterState) :
    (minterUpdateShared s).desiredFrontier = s.desiredFrontier := by
  unfold minterUpdateShared; split <;> rfl

lemma minterUpdateShared_emitted (s : MinterState) :
    (minterUpdateShared s).emittedPersistFrontier = s.emittedPersistFrontier := by
  unfold minterUpdateShared; split <;> rfl

lemma minterUpdateShared_cap (s : MinterState) :
    (minterUpdateShared s).capSet = s.capSet := by
  unfold minterUpdateShared; split <;> rfl

lemma mintGuard_updateShared (s : MinterState) :
    mintGuard (minterUpdateShared s) = mintGuard s := by
  unfold minterUpdateShared; split <;> rfl

lemma mintGuard_parts {s : MinterState} (hg : mintGuard s = true) :
    frontierLt s.persistFrontier s.desiredFrontier = true ∧ mintAdvanced s = true :=
  (Bool.and_eq_true _ _).mp hg

lemma mintGuard_iff (s : MinterState) :
    mintGuard s = true ↔
      (frontierLt s.persistFrontier s.desiredFrontier = true ∧
       (s.emittedPersistFrontier = none ∨
        ∃ f, s.emittedPersistFrontier = some f ∧
          frontierLt f s.persistFrontier = true)) := by
  unfold mintGuard mintAdvanced
  cases h : s.emittedPersistFrontier <;> simp [h]

lemma minterTryEmit_emit {s : MinterState} {p : Nat}
    (hg : mintGuard s = true) (hp : s.persistFrontier = some p)
    (hc : frontierLeT s.capSet p = true) :
    minterTryEmit s =
      { state := { s with
          emittedPersistFrontier := some s.persistFrontier
          capSet := some (p + 1) }
        emitted := some (s.persistFrontier, s.desiredFrontier)
        panicked := false } := by
  unfold minterTryEmit
  rw [hp] at *
  simp [hg, hc]

lemma minterTryEmit_no_emit {s : MinterState} (hg : mintGuard s = false) :
    minterTryEmit s = { state := s, emitted := none, panicked := false } := by
  unfold minterTryEmit
  simp [hg]

lemma minterTryEmit_shared (s : MinterState) :
    (minterTryEmit s).state.sharedFrontier = s.sharedFrontier := by
  unfold minterTryEmit
  split
  · split
    · split <;> rfl
    · rfl
  · rfl

lemma minterStep_progress (s : MinterState) (e : MinterEvent)
    (hp : minterIsProgress e = true) :
    minterStep s e = minterTryEmit (minterUpdateShared (minterApplyEvent s e)) := by
  cases e <;> simp [minterIsProgress] at hp <;> rfl

/-- C1. For every scheduling step of the leader minter processing one input
event, a batch description is emitted if and only if, after the frontier
update of that event, the persist frontier is strictly less than the
desired frontier and the persist frontier has strictly advanced since the
last emitted description (or no description was emitted yet); moreover the
emitted description is exactly (persist_frontier, desired_frontier). In
particular, when only the desired frontier advances while the persist
frontier stays put, the second condition fails and nothing is emitted. The
hypotheses are the reachability invariant of the loop: the capability set
matches the emission history and the guard does not already hold on entry
(the guard is consumed by the very step that makes it true). -/
theorem mint_emits_iff_persist_advanced (s : MinterState) (e : MinterEvent)
    (h1 : MinterInv s) (h2 : mintGuard s = false) :
    ((minterStep s e).emitted ≠ none ↔
      (frontierLt (minterApplyEvent s e).persistFrontier
          (minterApplyEvent s e).desiredFrontier = true ∧
       (s.emittedPersistFrontier = none ∨
        ∃ f, s.emittedPersistFrontier = some f ∧
          frontierLt f (minterApplyEvent s e).persistFrontier = true))) ∧
    (∀ d, (minterStep s e).emitted = some d →
      d = ((minterApplyEvent s e).persistFrontier,
           (minterApplyEvent s e).desiredFrontier)) := by
  have hiff :
      mintGuard (minterApplyEvent s e) = true ↔
        (frontierLt (minterApplyEvent s e).persistFrontier
            (minterApplyEvent s e).desiredFrontier = true ∧
         (s.emittedPersistFrontier = none ∨
          ∃ f, s.emittedPersistFrontier = some f ∧
            frontierLt f (minterApplyEvent s e).persistFrontier = true)) := by
    rw [mintGuard_iff, minterApplyEvent_emitted]
  by_cases hprog : minterIsProgress e = true
  · rw [minterStep_progress s e hprog]
    by_cases hg : mintGuard (minterApplyEvent s e) = true
    · -- the guard holds after the frontier update, so the step emits
      have hgu : mintGuard (minterUpdateShared (minterApplyEvent s e)) = true := by
        rw [mintGuard_updateShared]; exact hg
      obtain ⟨hlt, _⟩ := mintGuard_parts hg
      obtain ⟨p, hp⟩ := frontierLt_some hlt
      have hpu : (minterUpdateShared (minterApplyEvent s e)).persistFrontier = some p := by
        rw [minterUpdateShared_persist]; exact hp
      have hcap : frontierLeT (minterUpdateShared (minterApplyEvent s e)).capSet p = true := by
        rw [minterUpdateShared_cap, minterApplyEvent_cap]
        rcases h1 with ⟨hen, hc0⟩ | ⟨l, hel, hcl⟩
        · rw [hc0]; simp [frontierLeT]
        · rw [hcl]
          rcases (hiff.mp hg).2 with hnone | ⟨f, hf, hflt⟩
          · rw [hel] at hnone; cases hnone
          · rw [hel] at hf
            have hfeq : f = some l := by injection hf with h; exact h.symm
            subst hfeq
            rw [hp] at hflt
            simp [frontierLt, frontierLe] at hflt
            simp [frontierLeT]
            omega
      rw [minterTryEmit_emit hgu hpu hcap]
      constructor
      · exact iff_of_true (by simp) (hiff.mp hg)
      · intro d hd
        simp at hd
        rw [← hd]
        simp [minterUpdateShared_persist, minterUpdateShared_desired]
    · have hgu : mintGuard (minterUpdateShared (minterApplyEvent s e)) = false := by
        rw [mintGuard_updateShared]
        exact Bool.eq_false_iff.mpr hg
      rw [minterTryEmit_no_emit hgu]
      constructor
      · exact iff_of_false (by simp) (fun hrhs => hg (hiff.mpr hrhs))
      · intro d hd; cases hd
  · -- data events are read away and never mint
    have hga : mintGuard (minterApplyEvent s e) = false := by
      cases e <;> simp [minterIsProgress] at hprog <;> simpa [minterApplyEvent] using h2
    have hstep : (minterStep s e).emitted = none := by
      cases e <;> simp [minterIsProgress] at hprog <;> rfl
    constructor
    · rw [hstep]
      refine iff_of_false (by simp) (fun hrhs => ?_)
      have := hiff.mpr hrhs
      rw [hga] at this
      cases this
    · intro d hd
      rw [hstep] at hd
      cases hd

/-- Witness for C1: from the start state, a desired progress event to
frontier two makes the minter emit (the persist frontier minimum is below
the new desired frontier and nothing was emitted yet). -/
theorem mint_emits_iff_persist_advanced_witness :
    (minterStep minterInit (MinterEvent.desiredProgress (some 2))).emitted ≠ none :=
  ((mint_emits_iff_persist_advanced minterInit (MinterEvent.desiredProgress (some 2))
      (Or.inl ⟨rfl, rfl⟩) rfl).1).mpr ⟨by decide, Or.inl rfl⟩

/-- The hypotheses of the emission characterization are a genuine
reachability invariant: they hold at the start state and are preserved by
every non-panicking step. -/
lemma minterStep_preserves_inv (s : MinterState) (e : MinterEvent)
    (h1 : MinterInv s) (h2 : mintGuard s = false) :
    MinterInv (minterStep s e).state ∧
    mintGuard (minterStep s e).state = false ∧
    (minterStep s e).panicked = false := by
  by_cases hprog : minterIsProgress e = true
  · rw [minterStep_progress s e hprog]
    by_cases hg : mintGuard (minterApplyEvent s e) = true
    · have hgu : mintGuard (minterUpdateShared (minterApplyEvent s e)) = true := by
        rw [mintGuard_updateShared]; exact hg
      obtain ⟨hlt, _⟩ := mintGuard_parts hg
      obtain ⟨p, hp⟩ := frontierLt_some hlt
      have hpu : (minterUpdateShared (minterApplyEvent s e)).persistFrontier = some p := by
        rw [minterUpdateShared_persist]; exact hp
      have hiff := (mintGuard_iff (minterApplyEvent s e)).mp hg
      have hcap : frontierLeT (minterUpdateShared (minterApplyEvent s e)).capSet p = true := by
        rw [minterUpdateShared_cap, minterApplyEvent_cap]
        rcases h1 with ⟨hen, hc0⟩ | ⟨l, hel, hcl⟩
        · rw [hc0]; simp [frontierLeT]
        · rw [hcl]
          rcases hiff.2 with hnone | ⟨f, hf, hflt⟩
          · rw [minterApplyEvent_emitted, hel] at hnone; cases hnone
          · rw [minterApplyEvent_emitted, hel] at hf
            have hfeq : f = some l := by injection hf with h; exact h.symm
            subst hfeq
            rw [hp] at hflt
            simp [frontierLt, frontierLe] at hflt
            simp [frontierLeT]
            omega
      rw [minterTryEmit_emit hgu hpu hcap]
      refine ⟨Or.inr ⟨p, by simp [hpu], by simp⟩, ?_, rfl⟩
      · unfold mintGuard mintAdvanced
        simp [hpu, frontierLt_irrefl]
    · have hgu : mintGuard (minterUpdateShared (minterApplyEvent s e)) = false := by
        rw [mintGuard_updateShared]; exact Bool.eq_false_iff.mpr hg
      rw [minterTryEmit_no_emit hgu]
      refine ⟨?_, hgu, rfl⟩
      rcases h1 with ⟨hen, hc0⟩ | ⟨l, hel, hcl⟩
      · exact Or.inl ⟨by simp [minterUpdateShared_emitted, minterApplyEvent_emitted, hen],
          by simp [minterUpdateShared_cap, minterApplyEvent_cap, hc0]⟩
      · exact Or.inr ⟨l, by simp [minterUpdateShared_emitted, minterApplyEvent_emitted, hel],
          by simp [minterUpdateShared_cap, minterApplyEvent_cap, hcl]⟩
  · have hstep : minterStep s e = ⟨s, none, false⟩ := by
      cases e <;> simp [minterIsProgress] at hprog <;> rfl
    rw [hstep]
    exact ⟨h1, h2, rfl⟩

lemma minterInit_inv : MinterInv minterInit ∧ mintGuard minterInit = false :=
  ⟨Or.inl ⟨rfl, rfl⟩, rfl⟩

/-- What one step of the mint loop can do to the emission history: either
it emits nothing and leaves the marker of the last emitted persist
frontier untouched, or it emits one description whose lower is strictly
less than its upper, strictly greater than the previous marker, and which
becomes the new marker. -/
lemma minterStep_emitted_spec (s : MinterState) (e : MinterEvent) :
    ((minterStep s e).emitted = none ∧
     (minterStep s e).state.emittedPersistFrontier = s.emittedPersistFrontier) ∨
    (∃ d, (minterStep s e).emitted = some d ∧
      (minterStep s e).state.emittedPersistFrontier = some d.1 ∧
      frontierLt d.1 d.2 = true ∧
      ∀ f0, s.emittedPersistFrontier = some f0 → frontierLt f0 d.1 = true) := by
  by_cases hprog : minterIsProgress e = true
  · rw [minterStep_progress s e hprog]
    by_cases hg : mintGuard (minterApplyEvent s e) = true
    · have hgu : mintGuard (minterUpdateShared (minterApplyEvent s e)) = true := by
        rw [mintGuard_updateShared]; exact hg
      obtain ⟨hlt, hadv⟩ := mintGuard_parts hg
      obtain ⟨p, hp⟩ := frontierLt_some hlt
      have hpu : (minterUpdateShared (minterApplyEvent s e)).persistFrontier = some p := by
        rw [minterUpdateShared_persist]; exact hp
      by_cases hcap : frontierLeT (minterUpdateShared (minterApplyEvent s e)).capSet p = true
      · rw [minterTryEmit_emit hgu hpu hcap]
        refine Or.inr ⟨((minterUpdateShared (minterApplyEvent s e)).persistFrontier,
            (minterUpdateShared (minterApplyEvent s e)).desiredFrontier), rfl, by simp, ?_, ?_⟩
        · rw [minterUpdateShared_persist, minterUpdateShared_desired]
          exact hlt
        · intro f0 hf0
          rw [minterUpdateShared_persist]
          unfold mintAdvanced at hadv
          rw [minterApplyEvent_emitted, hf0] at hadv
          exact hadv
      · unfold minterTryEmit
        rw [hpu] at *
        simp [hgu, hcap]
        rw [minterUpdateShared_emitted, minterApplyEvent_emitted]
    · have hgu : mintGuard (minterUpdateShared (minterApplyEvent s e)) = false := by
        rw [mintGuard_updateShared]; exact Bool.eq_false_iff.mpr hg
      rw [minterTryEmit_no_emit hgu]
      exact Or.inl ⟨rfl, by rw [minterUpdateShared_emitted, minterApplyEvent_emitted]⟩
  · have hstep : minterStep s e = ⟨s, none, false⟩ := by
      cases e <;> simp [minterIsProgress] at hprog <;> rfl
    rw [hstep]
    exact Or.inl ⟨rfl, rfl⟩

lemma minterRunEmits_cons (s : MinterState) (e : MinterEvent) (es : List MinterEvent) :
    minterRunEmits s (e :: es) =
      (minterStep s e).emitted.toList ++ minterRunEmits (minterStep s e).state es := rfl

lemma minterRun_emits_lt (es : List MinterEvent) :
    ∀ s d, d ∈ minterRunEmits s es → frontierLt d.1 d.2 = true := by
  induction es with
  | nil => intro s d h; cases h
  | cons e es ih =>
    intro s d h
    rw [minterRunEmits_cons] at h
    rcases List.mem_append.mp h with hhd | htl
    · rcases minterStep_emitted_spec s e with ⟨hnone, _⟩ | ⟨d0, hsome, _, hlt, _⟩
      · rw [hnone] at hhd; cases hhd
      · rw [hsome] at hhd
        simp [Option.toList] at hhd
        rw [hhd]
        exact hlt
    · exact ih _ d htl

lemma minterRun_emits_chain (es : List MinterEvent) :
    ∀ s, (∀ f0, s.emittedPersistFrontier = some f0 →
            ∀ d ∈ minterRunEmits s es, frontierLt f0 d.1 = true) ∧
      List.Pairwise (fun a b : BatchDesc => frontierLt a.1 b.1 = true)
        (minterRunEmits s es) := by
  induction es with
  | nil => intro s; exact ⟨fun _ _ _ h => absurd h (List.not_mem_nil _), List.Pairwise.nil⟩
  | cons e es ih =>
    intro s
    rw [minterRunEmits_cons]
    rcases minterStep_emitted_spec s e with ⟨hnone, hfix⟩ | ⟨d0, hsome, hmark, _, hprev⟩
    · rw [hnone]
      simp only [Option.toList, List.nil_append]
      refine ⟨fun f0 hf0 d hd => ?_, (ih (minterStep s e).state).2⟩
      exact (ih (minterStep s e).state).1 f0 (by rw [hfix]; exact hf0) d hd
    · rw [hsome]
      simp only [Option.toList, List.cons_append, List.nil_append]
      have hrest : ∀ d2 ∈ minterRunEmits (minterStep s e).state es,
          frontierLt d0.1 d2.1 = true :=
        (ih (minterStep s e).state).1 d0.1 hmark
      constructor
      · intro f0 hf0 d hd
        rcases List.mem_cons.mp hd with rfl | htl
        · exact hprev f0 hf0
        · exact frontierLt_trans (hprev f0 hf0) (hrest d htl)
      · exact List.Pairwise.cons hrest (ih (minterStep s e).state).2

/-- C7 counterexample: the two descriptions minted by the run below have
strictly increasing lowers but overlapping half-open windows: time two is
at or beyond the lower and strictly before the upper of both. This happens
when the persist frontier advances to a point inside the previously
proposed window, as after a losing race with a concurrent writer. -/
theorem mint_descriptions_can_overlap :
    minterRunEmits minterInit
        [MinterEvent.desiredProgress (some 5), MinterEvent.persistProgress (some 2)]
      = [(some 0, some 5), (some 2, some 5)] ∧
    frontierLeT (some 0) 2 = true ∧ frontierLeT (some 2) 2 = true ∧
    frontierLeT (some 5) 2 = false := by decide

/-- C7 amended: for any two distinct batch descriptions emitted by the
minter of one sink instance, their lower frontiers are distinct and
comparable, with the later-emitted description having the strictly greater
lower. (The windows of two emitted descriptions can nevertheless overlap,
see the counterexample.) -/
theorem mint_lowers_strictly_increasing (es : List MinterEvent) :
    List.Pairwise (fun a b : BatchDesc => frontierLt a.1 b.1 = true)
      (minterRunEmits minterInit es) :=
  (minterRun_emits_chain es minterInit).2

/-- C2 counterexample: with the as_of equal to the frontier one and the
shard upper at the minimum, the first minted description has lower equal to
the minimum frontier, which is not greater or equal to the as_of. The write
lower bound is consulted only by the bootstrap append; the mint loop starts
its persist frontier at the minimum regardless. -/
theorem mint_lower_can_precede_as_of :
    (minterRunWithAsOf (some 0) (some 1) [MinterEvent.desiredProgress (some 2)]).2
      = [(some 0, some 2)] ∧
    frontierLe (some 1) (some 0) = false := by decide

/-- C2 amended: for every batch description (l, u) emitted by the minter of
one sink instance, l is strictly less than u. The bound l greater or equal
as_of does not hold for emitted descriptions in general: the minting loop
starts from the minimum persist frontier independently of the as_of, so the
first description can have a lower strictly below the as_of (such a
description later fails its compare_and_append because the bootstrap put
the shard upper at or beyond the as_of). -/
theorem mint_description_lower_lt_upper (es : List MinterEvent) (d : BatchDesc)
    (h : d ∈ minterRunEmits minterInit es) : frontierLt d.1 d.2 = true :=
  minterRun_emits_lt es minterInit d h

/-- Witness for the amended C2 at a concrete run that emits one
description. -/
theorem mint_description_lower_lt_upper_witness : frontierLt (some 0) (some 2) = true :=
  mint_description_lower_lt_upper [MinterEvent.desiredProgress (some 2)]
    (some 0, some 2) (by decide)

lemma minterStep_shared (s : MinterState) (e : MinterEvent) :
    (minterStep s e).state.sharedFrontier =
      if (minterIsProgress e &&
          frontierLt s.sharedFrontier (minterApplyEvent s e).persistFrontier) = true
      then (minterApplyEvent s e).persistFrontier
      else s.sharedFrontier := by
  by_cases hprog : minterIsProgress e = true
  · rw [minterStep_progress s e hprog, minterTryEmit_shared, hprog]
    have hsh : (minterApplyEvent s e).sharedFrontier = s.sharedFrontier := by
      cases e <;> rfl
    unfold minterUpdateShared
    rw [hsh]
    split <;> simp_all
  · have hstep : minterStep s e = ⟨s, none, false⟩ := by
      cases e <;> simp [minterIsProgress] at hprog <;> rfl
    rw [hstep]
    simp [Bool.eq_false_iff.mpr hprog]

lemma minterStep_shared_le (s : MinterState) (e : MinterEvent) :
    frontierLe s.sharedFrontier (minterStep s e).state.sharedFrontier = true := by
  rw [minterStep_shared]
  split
  · next h =>
    have hlt := ((Bool.and_eq_true _ _).mp h).2
    exact frontierLt_le hlt
  · exact frontierLe_refl _

lemma minterRun_shared_mono (es : List MinterEvent) :
    ∀ s, frontierLe s.sharedFrontier ((minterRun s es).1.sharedFrontier) = true := by
  induction es with
  | nil => intro s; exact frontierLe_refl _
  | cons e es ih =>
    intro s
    have h1 := minterStep_shared_le s e
    have h2 := ih (minterStep s e).state
    exact frontierLe_trans h1 h2

/-- C8. The leader minter replaces (rather than merges) the shared
write-frontier cell with the observed persist frontier exactly when the
current cell value is strictly less than the persist frontier after the
frontier update of the event (data events skip the update entirely);
consequently the shared frontier is non-decreasing over every single step
and over every execution of the minter loop. -/
theorem mint_shared_frontier_monotone (s : MinterState) (e : MinterEvent) :
    ((minterStep s e).state.sharedFrontier =
      if (minterIsProgress e &&
          frontierLt s.sharedFrontier (minterApplyEvent s e).persistFrontier) = true
      then (minterApplyEvent s e).persistFrontier
      else s.sharedFrontier) ∧
    frontierLe s.sharedFrontier (minterStep s e).state.sharedFrontier = true ∧
    ∀ es, frontierLe s.sharedFrontier ((minterRun s es).1.sharedFrontier) = true :=
  ⟨minterStep_shared s e, minterStep_shared_le s e, fun es => minterRun_shared_mono es s⟩

/-! ### Supporting lemmas about the writer -/

lemma writerInsertDescs_correction (ds : List BatchDesc) :
    ∀ s, (writerInsertDescs s ds).1.correction = s.correction := by
  induction ds with
  | nil => intro s; rfl
  | cons d ds ih =>
    intro s
    unfold writerInsertDescs
    split
    · rfl
    · exact ih _

lemma writerApplyEvent_correction (s : WriterState) (e : WriterEvent) :
    (writerApplyEvent s e).correction = s.correction := by
  cases e <;> rfl

lemma writerApplyEvent_inFlight (s : WriterState) (e : WriterEvent) :
    (writerApplyEvent s e).inFlight = s.inFlight := by
  cases e <;> rfl

lemma writerStep_progress (s : WriterState) (e : WriterEvent)
    (hp : writerIsProgress e = true) :
    writerStep s e = writerMaybeEmit (writerApplyEvent s e) := by
  cases e <;> simp [writerIsProgress] at hp <;> rfl

/-- C9. The in-loop advancement of the correction buffer by the persist
frontier changes only the time component of each entry, rounding it up to
the join with the frontier; payloads and diffs are untouched, and no
entries are added or removed. -/
theorem write_advance_preserves_payload_diff (pf : Frontier) (l : List Update) :
    ((advanceCorrection pf l).map (fun u => u.1) = l.map (fun u => u.1)) ∧
    ((advanceCorrection pf l).map (fun u => u.2.2) = l.map (fun u => u.2.2)) ∧
    ((advanceCorrection pf l).map (fun u => u.2.1) = l.map (fun u => advanceBy u.2.1 pf)) ∧
    ((advanceCorrection pf l).length = l.length) ∧
    (∀ t p, advanceBy t (some p) = max t p) := by
  unfold advanceCorrection
  refine ⟨?_, ?_, ?_, ?_, fun t p => rfl⟩ <;> simp [List.map_map, Function.comp]

/-- C4 counterexample state: one correction entry at time three, no
in-flight descriptions, desired frontier seven, persist frontier zero. -/
def c4state : WriterState :=
  { correction := [(0, 3, 1)], inFlight := [], descsFrontier := some 0,
    desiredFrontier := some 7, persistFrontier := some 0 }

/-- C4 counterexample: a progress event on the persist input (not a data
arrival on either data input) changes the multiset of (payload, time, diff)
entries of the correction buffer, by advancing the time of the entry from
three to five. -/
theorem write_progress_mutates_correction :
    (writerStep c4state (WriterEvent.persistProgress (some 5))).state.correction
      = [(0, 5, 1)] ∧
    ¬ List.Perm
        ((writerStep c4state (WriterEvent.persistProgress (some 5))).state.correction)
        c4state.correction := by decide

lemma writerMaybeEmit_correction (s2 : WriterState) :
    (writerMaybeEmit s2).state.correction = s2.correction ∨
    (writerMaybeEmit s2).state.correction =
      advanceCorrection s2.persistFrontier s2.correction ∨
    (writerMaybeEmit s2).state.correction =
      consolidate (advanceCorrection s2.persistFrontier s2.correction) := by
  unfold writerMaybeEmit
  split
  · exact Or.inl rfl
  · dsimp only
    split
    · exact Or.inr (Or.inl rfl)
    · exact Or.inr (Or.inr rfl)

/-- C4 amended: updates arriving on the desired input are appended to the
correction buffer with their diff unchanged, updates arriving on the
persist input are appended with their diff negated, and description data
leave the buffer unchanged; the only other modifications, both triggered by
progress events, are the advancement of entry times by the persist frontier
and (when a batch is about to be written) consolidation. -/
theorem write_correction_update_rules (s : WriterState) (e : WriterEvent) :
    match e with
    | WriterEvent.desiredData us =>
        (writerStep s e).state.correction = s.correction ++ us
    | WriterEvent.persistData us =>
        (writerStep s e).state.correction = s.correction ++ us.map negUpd
    | WriterEvent.descsData _ =>
        (writerStep s e).state.correction = s.correction
    | _ =>
        (writerStep s e).state.correction = s.correction ∨
        (writerStep s e).state.correction =
          advanceCorrection (writerApplyEvent s e).persistFrontier s.correction ∨
        (writerStep s e).state.correction =
          consolidate
            (advanceCorrection (writerApplyEvent s e).persistFrontier s.correction) := by
  cases e with
  | descsData ds => exact writerInsertDescs_correction ds s
  | desiredData us => rfl
  | persistData us => rfl
  | descsProgress f =>
    have h := writerMaybeEmit_correction (writerApplyEvent s (WriterEvent.descsProgress f))
    rw [writerApplyEvent_correction] at h
    exact h
  | desiredProgress f =>
    have h := writerMaybeEmit_correction (writerApplyEvent s (WriterEvent.desiredProgress f))
    rw [writerApplyEvent_correction] at h
    exact h
  | persistProgress f =>
    have h := writerMaybeEmit_correction (writerApplyEvent s (WriterEvent.persistProgress f))
    rw [writerApplyEvent_correction] at h
    exact h

lemma writerMaybeEmit_mem_spec (s2 : WriterState) (d : BatchDesc) (arts : List Artifact)
    (h : (d, arts) ∈ (writerMaybeEmit s2).emitted) :
    arts = batchFor (writerMaybeEmit s2).state.correction d.1 d.2 ∧
    (writerMaybeEmit s2).state.correction =
      consolidate (advanceCorrection s2.persistFrontier s2.correction) ∧
    (writerMaybeEmit s2).state.persistFrontier = s2.persistFrontier := by
  unfold writerMaybeEmit at *
  by_cases hle : frontierLe s2.desiredFrontier s2.persistFrontier = true
  · rw [if_pos hle] at h
    cases h
  · rw [if_neg hle] at h ⊢
    dsimp only at h ⊢
    rcases List.mem_map.mp h with ⟨d0, hd0, heq⟩
    have hne : (List.filter
        (writerReady s2.descsFrontier s2.desiredFrontier s2.persistFrontier)
        s2.inFlight).isEmpty = false := by
      cases hfe : (List.filter
          (writerReady s2.descsFrontier s2.desiredFrontier s2.persistFrontier)
          s2.inFlight).isEmpty
      · rfl
      · rw [List.isEmpty_iff] at hfe
        rw [hfe] at hd0
        cases hd0
    rw [hne] at heq ⊢
    simp only [Bool.false_eq_true, if_false] at heq ⊢
    obtain ⟨hd, ha⟩ := Prod.mk.injEq .. ▸ heq
    subst hd
    refine ⟨ha.symm, ?_, ?_⟩ <;> first | rfl | trivial

lemma writerMaybeEmit_mem_iff (s2 : WriterState) (d : BatchDesc) :
    (∃ arts, (d, arts) ∈ (writerMaybeEmit s2).emitted) ↔
      (d ∈ s2.inFlight ∧
       frontierLe s2.desiredFrontier s2.persistFrontier = false ∧
       writerReady s2.descsFrontier s2.desiredFrontier s2.persistFrontier d = true) := by
  unfold writerMaybeEmit
  split
  · next hle =>
    simp only [List.not_mem_nil]
    constructor
    · rintro ⟨arts, h⟩; cases h
    · rintro ⟨_, hguard, _⟩
      rw [hle] at hguard
      cases hguard
  · next hle =>
    dsimp only
    constructor
    · rintro ⟨arts, h⟩
      rcases List.mem_map.mp h with ⟨d0, hd0, heq⟩
      obtain ⟨hd, _⟩ := Prod.mk.injEq .. ▸ heq
      rw [← hd]
      have := List.mem_filter.mp hd0
      exact ⟨this.1, Bool.eq_false_iff.mpr hle, this.2⟩
    · rintro ⟨hmem, _, hready⟩
      exact ⟨_, List.mem_map.mpr ⟨d, List.mem_filter.mpr ⟨hmem, hready⟩, rfl⟩⟩

lemma writerStep_data_emitted (s : WriterState) (e : WriterEvent)
    (hp : writerIsProgress e = false) : (writerStep s e).emitted = [] := by
  cases e <;> simp [writerIsProgress] at hp <;> rfl

/-- C3. Whenever the writer emits the artifact list for a ready description
(lower, upper), that list is exactly batchFor of the consolidated
correction buffer: the entries whose time t satisfies lower less_equal t
and not upper less_equal t, as one artifact when the subset is nonempty
and as zero artifacts when it is empty; and the correction buffer at that
point is the consolidation of the advanced original buffer. -/
theorem write_ready_batch_contents (s : WriterState) (e : WriterEvent)
    (d : BatchDesc) (arts : List Artifact)
    (h : (d, arts) ∈ (writerStep s e).emitted) :
    arts = batchFor (writerStep s e).state.correction d.1 d.2 ∧
    (writerStep s e).state.correction =
      consolidate
        (advanceCorrection (writerStep s e).state.persistFrontier s.correction) := by
  by_cases hprog : writerIsProgress e = true
  · rw [writerStep_progress s e hprog] at h ⊢
    obtain ⟨h1, h2, h3⟩ := writerMaybeEmit_mem_spec (writerApplyEvent s e) d arts h
    refine ⟨h1, ?_⟩
    rw [h3, h2, writerApplyEvent_correction]
  · rw [writerStep_data_emitted s e (Bool.eq_false_iff.mpr hprog)] at h
    cases h

/-- C3 witness state: one correction entry inside the window of the single
in-flight description. -/
def c3state : WriterState :=
  { correction := [(5, 1, 1)], inFlight := [(some 0, some 2)], descsFrontier := some 1,
    desiredFrontier := some 0, persistFrontier := some 0 }

/-- Witness for C3 at a concrete emitting step. -/
theorem write_ready_batch_contents_witness :
    [({ updates := [(5, 1, 1)], lower := some 0, upper := some 2 } : Artifact)]
      = batchFor
          (writerStep c3state (WriterEvent.desiredProgress (some 3))).state.correction
          (some 0) (some 2) ∧
    (writerStep c3state (WriterEvent.desiredProgress (some 3))).state.correction
      = consolidate
          (advanceCorrection
            (writerStep c3state (WriterEvent.desiredProgress (some 3))).state.persistFrontier
            c3state.correction) :=
  write_ready_batch_contents c3state (WriterEvent.desiredProgress (some 3))
    (some 0, some 2) [{ updates := [(5, 1, 1)], lower := some 0, upper := some 2 }]
    (by decide)

/-- C5 counterexample state: one in-flight description whose three
readiness conditions all hold after the event below, while the desired
frontier is less_equal the persist frontier. -/
def c5state : WriterState :=
  { correction := [], inFlight := [(some 0, some 5)], descsFrontier := some 1,
    desiredFrontier := some 5, persistFrontier := some 4 }

/-- C5 counterexample: after the persist frontier advances to five, the
three conditions of the claim hold for the in-flight description, yet the
writer selects nothing and keeps the description in flight, because the
enclosing guard (the desired frontier must not be less_equal the persist
frontier, source line 682) fails. -/
theorem write_ready_not_selected_without_guard :
    writerReady (some 1) (some 5) (some 5) (some 0, some 5) = true ∧
    (writerStep c5state (WriterEvent.persistProgress (some 5))).emitted = [] ∧
    (some 0, some 5) ∈
      (writerStep c5state (WriterEvent.persistProgress (some 5))).state.inFlight := by
  decide

/-- C5 amended: during a progress step, an in-flight description is
selected as ready and written if and only if the three conditions hold
under the updated frontiers (the descriptions frontier is no longer
less_equal its lower, the desired frontier is not strictly less than its
upper, the persist frontier is not strictly less than its lower) and in
addition the desired frontier is not less_equal the persist frontier (the
enclosing guard under which the writer attempts writes at all). -/
theorem write_ready_selection (s : WriterState) (e : WriterEvent)
    (hprog : writerIsProgress e = true) (d : BatchDesc) :
    (∃ arts, (d, arts) ∈ (writerStep s e).emitted) ↔
      (d ∈ s.inFlight ∧
       frontierLe (writerApplyEvent s e).desiredFrontier
         (writerApplyEvent s e).persistFrontier = false ∧
       writerReady (writerApplyEvent s e).descsFrontier
         (writerApplyEvent s e).desiredFrontier
         (writerApplyEvent s e).persistFrontier d = true) := by
  rw [writerStep_progress s e hprog]
  rw [writerMaybeEmit_mem_iff, writerApplyEvent_inFlight]

/-- C5 amended witness state: an in-flight description with empty
correction, selected with zero artifacts once the desired frontier passes
its upper. -/
def c5wstate : WriterState :=
  { correction := [], inFlight := [(some 0, some 2)], descsFrontier := some 1,
    desiredFrontier := some 0, persistFrontier := some 0 }

/-- Witness for the amended C5 at a concrete selecting step. -/
theorem write_ready_selection_witness :
    ∃ arts, (((some 0 : Frontier), (some 2 : Frontier)), arts) ∈
      (writerStep c5wstate (WriterEvent.desiredProgress (some 3))).emitted :=
  (write_ready_selection c5wstate (WriterEvent.desiredProgress (some 3)) rfl
    (some 0, some 2)).mpr (by decide)

/-! ### Supporting lemmas about the appender -/

/-- The property C6 asserts of every compare_and_append call: the reaction
to the result downgrades the capability set and deletes exactly on
conflict. -/
def caaCallOk (c : CaaCall) : Prop :=
  (c.result = CaaResult.ok → c.capAfter = c.upper ∧ c.deleted = []) ∧
  (∀ cu, c.result = CaaResult.conflict cu → c.capAfter = cu ∧ c.deleted = c.batches)

lemma appenderProcessOne_call (st : AppenderState) (d : BatchDesc) :
    caaCallOk (appenderProcessOne st d).2 ∧
    (appenderProcessOne st d).2.lower = d.1 ∧
    (appenderProcessOne st d).2.upper = d.2 := by
  unfold caaCallOk appenderProcessOne shardCompareAndAppend
  by_cases hsh : st.shardUpper = d.1
  · rw [if_pos hsh]
    dsimp only
    exact ⟨⟨fun _ => ⟨rfl, rfl⟩, fun cu hcu => by cases hcu⟩, rfl, rfl⟩
  · rw [if_neg hsh]
    dsimp only
    constructor
    · constructor
      · intro hok; cases hok
      · intro cu hcu
        constructor
        · injection hcu with h
        · rfl
    · exact ⟨rfl, rfl⟩

lemma appenderProcessDone_calls (ds : List BatchDesc) :
    ∀ st c, c ∈ (appenderProcessDone st ds).2 → caaCallOk c := by
  induction ds with
  | nil => intro st c h; cases h
  | cons d ds ih =>
    intro st c h
    rcases List.mem_cons.mp h with rfl | htl
    · exact (appenderProcessOne_call st d).1
    · exact ih _ c htl

lemma appenderStep_calls (st : AppenderState) (e : AppenderEvent) (c : CaaCall)
    (h : c ∈ (appenderStep st e).calls) : caaCallOk c := by
  cases e with
  | descsData ds => cases h
  | batchesData bs => cases h
  | descsProgress f => exact appenderProcessDone_calls _ _ c h
  | batchesProgress f => exact appenderProcessDone_calls _ _ c h

/-- C6. For every compare_and_append performed by the appender while
processing done descriptions: on success the output capability set is
downgraded to the upper of the description and nothing is deleted; on a
conflict carrying the authoritative current upper, the capability set is
downgraded to that current upper and delete is called on every artifact
that was about to be committed for the description. -/
theorem append_commit_result_handling (st : AppenderState) (e : AppenderEvent)
    (c : CaaCall) (h : c ∈ (appenderStep st e).calls) :
    (c.result = CaaResult.ok → c.capAfter = c.upper ∧ c.deleted = []) ∧
    (∀ cu, c.result = CaaResult.conflict cu →
      c.capAfter = cu ∧ c.deleted = c.batches) :=
  appenderStep_calls st e c h

/-- C6 witness state: one in-flight description whose lower matches the
shard upper, so that the commit succeeds once the batches frontier passes
its lower. -/
def c6state : AppenderState :=
  { inFlightDescs := [(some 0, some 2)], inFlightBatches := [],
    descsFrontier := some 0, batchesFrontier := some 0,
    capSet := some 0, shardUpper := some 0 }

/-- Witness for C6 at the concrete call performed by the step below. -/
theorem append_commit_result_handling_witness :
    (({ lower := some 0, upper := some 2, batches := [], result := CaaResult.ok,
        capAfter := some 2, shardAfter := some 2, deleted := [] } : CaaCall).result
          = CaaResult.ok →
      ({ lower := some 0, upper := some 2, batches := [], result := CaaResult.ok,
         capAfter := some 2, shardAfter := some 2, deleted := [] } : CaaCall).capAfter
          = ({ lower := some 0, upper := some 2, batches := [], result := CaaResult.ok,
               capAfter := some 2, shardAfter := some 2, deleted := [] } : CaaCall).upper ∧
      ({ lower := some 0, upper := some 2, batches := [], result := CaaResult.ok,
         capAfter := some 2, shardAfter := some 2, deleted := [] } : CaaCall).deleted = []) ∧
    (∀ cu,
      ({ lower := some 0, upper := some 2, batches := [], result := CaaResult.ok,
         capAfter := some 2, shardAfter := some 2, deleted := [] } : CaaCall).result
          = CaaResult.conflict cu →
      ({ lower := some 0, upper := some 2, batches := [], result := CaaResult.ok,
         capAfter := some 2, shardAfter := some 2, deleted := [] } : CaaCall).capAfter = cu ∧
      ({ lower := some 0, upper := some 2, batches := [], result := CaaResult.ok,
         capAfter := some 2, shardAfter := some 2, deleted := [] } : CaaCall).deleted
          = ({ lower := some 0, upper := some 2, batches := [], result := CaaResult.ok,
               capAfter := some 2, shardAfter := some 2, deleted := [] } : CaaCall).batches) :=
  append_commit_result_handling c6state (AppenderEvent.batchesProgress (some 1)) _ (by decide)

lemma lookupBatches_removeBatches_self (m : List (BatchDesc × List Artifact))
    (d : BatchDesc) : lookupBatches (removeBatches m d) d = [] := by
  induction m with
  | nil => rfl
  | cons p m ih =>
    simp only [removeBatches]
    by_cases h1 : p.1 = d
    · rw [if_pos h1]
      exact ih
    · rw [if_neg h1]
      simp only [lookupBatches]
      rw [if_neg h1]
      exact ih

lemma lookupBatches_removeBatches_other (m : List (BatchDesc × List Artifact))
    (d d2 : BatchDesc) (hd : d ≠ d2) :
    lookupBatches (removeBatches m d2) d = lookupBatches m d := by
  induction m with
  | nil => rfl
  | cons p m ih =>
    simp only [removeBatches]
    by_cases h1 : p.1 = d2
    · rw [if_pos h1, ih]
      simp only [lookupBatches]
      rw [if_neg (fun hh : p.1 = d => hd (hh.symm.trans h1))]
    · rw [if_neg h1]
      simp only [lookupBatches]
      by_cases h2 : p.1 = d
      · rw [if_pos h2, if_pos h2]
      · rw [if_neg h2, if_neg h2]
        exact ih

lemma lookupBatches_removeBatches_nil (m : List (BatchDesc × List Artifact))
    (d d2 : BatchDesc) (h : lookupBatches m d = []) :
    lookupBatches (removeBatches m d2) d = [] := by
  by_cases hd : d = d2
  · rw [hd]
    exact lookupBatches_removeBatches_self m d2
  · rw [lookupBatches_removeBatches_other m d d2 hd]
    exact h

lemma appenderProcessOne_batchesMap (st : AppenderState) (d0 : BatchDesc) :
    (appenderProcessOne st d0).1.inFlightBatches = removeBatches st.inFlightBatches d0 := by
  unfold appenderProcessOne shardCompareAndAppend
  by_cases hsh : st.shardUpper = d0.1
  · rw [if_pos hsh]
  · rw [if_neg hsh]

lemma appenderProcessOne_batches (st : AppenderState) (d : BatchDesc) :
    (appenderProcessOne st d).2.batches = lookupBatches st.inFlightBatches d := by
  unfold appenderProcessOne shardCompareAndAppend
  by_cases hsh : st.shardUpper = d.1
  · rw [if_pos hsh]
  · rw [if_neg hsh]

lemma appenderProcessOne_ok_shard (st : AppenderState) (d : BatchDesc)
    (h : (appenderProcessOne st d).2.result = CaaResult.ok) :
    (appenderProcessOne st d).2.shardAfter = d.2 := by
  unfold appenderProcessOne shardCompareAndAppend at *
  by_cases hsh : st.shardUpper = d.1
  · rw [if_pos hsh]
  · rw [if_neg hsh] at h
    cases h

lemma appenderProcessDone_mem (ds : List BatchDesc) :
    ∀ st d, d ∈ ds → lookupBatches st.inFlightBatches d = [] →
      ∃ c, c ∈ (appenderProcessDone st ds).2 ∧
        c.lower = d.1 ∧ c.upper = d.2 ∧ c.batches = [] ∧
        (c.result = CaaResult.ok → c.shardAfter = d.2) := by
  induction ds with
  | nil => intro st d h; cases h
  | cons d0 ds ih =>
    intro st d hmem hlook
    rcases List.mem_cons.mp hmem with rfl | htl
    · refine ⟨(appenderProcessOne st d).2, List.mem_cons_self _ _,
        (appenderProcessOne_call st d).2.1, (appenderProcessOne_call st d).2.2, ?_,
        appenderProcessOne_ok_shard st d⟩
      rw [appenderProcessOne_batches]
      exact hlook
    · have hlook2 : lookupBatches (appenderProcessOne st d0).1.inFlightBatches d = [] := by
        rw [appenderProcessOne_batchesMap]
        exact lookupBatches_removeBatches_nil _ _ _ hlook
      obtain ⟨c, hc, hrest⟩ := ih (appenderProcessOne st d0).1 d htl hlook2
      exact ⟨c, List.mem_cons_of_mem _ hc, hrest⟩

lemma mem_insertDescSorted (x y : BatchDesc) (l : List BatchDesc) :
    x ∈ insertDescSorted y l ↔ x = y ∨ x ∈ l := by
  induction l with
  | nil => simp [insertDescSorted]
  | cons a l ih =>
    unfold insertDescSorted
    split
    · rw [List.mem_cons, ih, List.mem_cons]
      tauto
    · rw [List.mem_cons, List.mem_cons]

lemma mem_sortDescs (x : BatchDesc) (l : List BatchDesc) (h : x ∈ l) :
    x ∈ sortDescs l := by
  induction l with
  | nil => cases h
  | cons a l ih =>
    show x ∈ insertDescSorted a (sortDescs l)
    rw [mem_insertDescSorted]
    rcases List.mem_cons.mp h with rfl | htl
    · exact Or.inl rfl
    · exact Or.inr (ih htl)

/-- C10. When a description (lower, upper) is in flight in the appender,
becomes done under the new batches input frontier (the frontier no longer
less_equal its lower), and the appender has received zero artifacts for it,
the appender still performs a compare_and_append for the window with an
empty list of batches, and on success the shard upper advances to the upper
of the description even though no data was committed. -/
theorem append_empty_batch_on_done (st : AppenderState) (f : Frontier) (d : BatchDesc)
    (hmem : d ∈ st.inFlightDescs)
    (hdone : frontierLe f d.1 = false)
    (hempty : lookupBatches st.inFlightBatches d = []) :
    ∃ c, c ∈ (appenderStep st (AppenderEvent.batchesProgress f)).calls ∧
      c.lower = d.1 ∧ c.upper = d.2 ∧ c.batches = [] ∧
      (c.result = CaaResult.ok → c.shardAfter = d.2) := by
  show ∃ c, c ∈ (appenderAfterProgress { st with batchesFrontier := f }).2 ∧ _
  unfold appenderAfterProgress
  apply appenderProcessDone_mem
  · apply mem_sortDescs
    refine List.mem_filter.mpr ⟨hmem, ?_⟩
    show (!frontierLe f d.1) = true
    rw [hdone]
    rfl
  · exact hempty

/-- C10 witness state: one done description with no artifacts collected. -/
def c10state : AppenderState :=
  { inFlightDescs := [(some 0, some 3)], inFlightBatches := [],
    descsFrontier := some 0, batchesFrontier := some 0,
    capSet := some 0, shardUpper := some 0 }

/-- Witness for C10 at a concrete step that commits an empty window. -/
theorem append_empty_batch_on_done_witness :
    ∃ c, c ∈ (appenderStep c10state (AppenderEvent.batchesProgress (some 1))).calls ∧
      c.lower = ((some 0 : Frontier), (some 3 : Frontier)).1 ∧
      c.upper = ((some 0 : Frontier), (some 3 : Frontier)).2 ∧
      c.batches = [] ∧
      (c.result = CaaResult.ok → c.shardAfter = ((some 0 : Frontier), (some 3 : Frontier)).2) :=
  append_empty_batch_on_done c10state (some 1) (some 0, some 3)
    (by decide) (by decide) (by decide)

end PersistSink
